import Mathlib

/-!
Verification of the simulation core of Schrodinger2D: the stability
diagnostics pass, the potential-field compositor, the tridiagonal solver and
the simulation harness, shallowly embedded from `src/sim`.  Machine doubles
are idealised by an arbitrary linear ordered field `K` (instantiated at `ℚ`
for concrete evaluation and at `ℝ` for the full simulation state, where the
code takes exponentials); a per-cell `finite` flag records whether a stored
value is a finite double, so that a NaN/Inf injected into the field can be
talked about without modelling IEEE arithmetic.
-/

namespace Schrodinger2D

/-- One `std::complex<double>` cell of the wavefunction: real and imaginary
components (idealised in `K`) plus a flag recording whether both components
are finite doubles (`std::isfinite` on both); `finite := false` marks a cell
holding a NaN or an infinity. -/
structure Cell (K : Type) where
  re : K
  im : K
  finite : Bool
deriving DecidableEq

/-- `sim::is_finite_complex` (simulation.cpp): both components finite. -/
def is_finite_complex {K : Type} (z : Cell K) : Bool := z.finite

variable {K : Type} [LinearOrderedField K]

/-- `std::norm(z)`: the squared magnitude `re^2 + im^2`. -/
def normSq (z : Cell K) : K := z.re * z.re + z.im * z.im

/-- The zero cell (a finite double). -/
def cell0 (K : Type) [LinearOrderedField K] : Cell K := ⟨0, 0, true⟩

/-- Cell lookup `psi[k]`; the simulation only indexes within bounds, where
this agrees with the C++ vector access. -/
def getC (psi : List (Cell K)) (k : ℕ) : Cell K := psi.getD k (cell0 K)

/-- `std::round`: nearest integer, halfway cases rounded away from zero. -/
def cppRound [FloorRing K] (q : K) : ℤ := if q < 0 then -(⌊-q + 1 / 2⌋) else ⌊q + 1 / 2⌋

/-- CAP sponge band width in cells, `max(1, (int)std::round(ratio * N))`
(potential.cpp and simulation.cpp). -/
def bandWidth [FloorRing K] (ratio : K) (N : ℕ) : ℤ := max 1 (cppRound (ratio * N))

/-- The interior window `[i0, i1) × [j0, j1)` that excludes the CAP sponge
band, with the full-grid fallback when the band consumes everything
(`Simulation::interior_mass` and `Simulation::update_diagnostics`). -/
def interiorWindow [FloorRing K] (ratio : K) (Nx Ny : ℕ) : ℤ × ℤ × ℤ × ℤ :=
  let wx := bandWidth ratio Nx
  let wy := bandWidth ratio Ny
  let i0 : ℤ := wx
  let i1 : ℤ := (Nx : ℤ) - wx
  let j0 : ℤ := wy
  let j1 : ℤ := (Ny : ℤ) - wy
  if i1 ≤ i0 ∨ j1 ≤ j0 then (0, (Nx : ℤ), 0, (Ny : ℤ)) else (i0, i1, j0, j1)

/-- The per-cell mass weight `w = std::norm(z) * dx * dy` at flat index `k`. -/
def cellMass (psi : List (Cell K)) (dx dy : K) (k : ℕ) : K :=
  normSq (getC psi k) * dx * dy

/-- Total mass: the sum of `w` over the whole row-major grid (the loops of
`Simulation::update_diagnostics` cover exactly the flat indices below
`Nx * Ny`, with `i = k % Nx`, `j = k / Nx`). -/
def totalMass (psi : List (Cell K)) (Nx Ny : ℕ) (dx dy : K) : K :=
  ∑ k ∈ Finset.range (Nx * Ny), cellMass psi dx dy k

/-- Mass accumulated in `left` by the diagnostics pass: cells with
column `i < mid` where `mid = Nx / 2`. -/
def leftMass (psi : List (Cell K)) (Nx Ny : ℕ) (dx dy : K) : K :=
  ∑ k ∈ Finset.range (Nx * Ny), if k % Nx < Nx / 2 then cellMass psi dx dy k else 0

/-- Mass accumulated in `right` by the diagnostics pass: all remaining cells
(`i >= mid`, the `else` branch of the split). -/
def rightMass (psi : List (Cell K)) (Nx Ny : ℕ) (dx dy : K) : K :=
  ∑ k ∈ Finset.range (Nx * Ny), if k % Nx < Nx / 2 then 0 else cellMass psi dx dy k

/-- Mass restricted to the interior window (the `insideY && i0 <= i < i1`
accumulation of the diagnostics pass, equally `Simulation::interior_mass`). -/
def interiorMass [FloorRing K] (cap_ratio : K) (psi : List (Cell K)) (Nx Ny : ℕ)
    (dx dy : K) : K :=
  let w := interiorWindow cap_ratio Nx Ny
  ∑ k ∈ Finset.range (Nx * Ny),
    if w.1 ≤ (k % Nx : ℤ) ∧ (k % Nx : ℤ) < w.2.1 ∧ w.2.2.1 ≤ (k / Nx : ℤ) ∧ (k / Nx : ℤ) < w.2.2.2
    then cellMass psi dx dy k else 0

/-- Whether every cell scanned by the diagnostics loops is finite. -/
def allFiniteB (psi : List (Cell K)) (Nx Ny : ℕ) : Bool :=
  (List.range (Nx * Ny)).all fun k => is_finite_complex (getC psi k)

/-- `sim::StabilityConfig` (simulation.hpp). -/
structure StabilityConfig (K : Type) where
  rel_mass_drift_tol : K
  rel_interior_mass_drift_tol : K
  warmup_steps : ℤ
  auto_pause_on_instability : Bool
deriving DecidableEq

/-- `sim::StabilityDiagnostics` (simulation.hpp). -/
structure StabilityDiagnostics (K : Type) where
  initial_mass : K
  current_mass : K
  initial_interior_mass : K
  current_interior_mass : K
  left_mass : K
  right_mass : K
  rel_mass_drift : K
  rel_interior_mass_drift : K
  steps_since_baseline : ℤ
  has_non_finite : Bool
  unstable : Bool
  reason : String
deriving DecidableEq

/-- A default-constructed `StabilityDiagnostics{}`: zeroed counters, clear
flags, empty reason. -/
def emptyDiag : StabilityDiagnostics K :=
  ⟨0, 0, 0, 0, 0, 0, 0, 0, 0, false, false, ""⟩

/-- `Simulation::update_diagnostics` (simulation.cpp): a single diagnostics
pass over `psi`, given the CAP parameters of the potential field, the
stability configuration, the grid geometry and the prior diagnostics. -/
def update_diagnostics [FloorRing K] (cap_strength cap_ratio : K)
    (cfg : StabilityConfig K) (Nx Ny : ℕ) (dx dy : K) (psi : List (Cell K))
    (is_time_step : Bool) (d : StabilityDiagnostics K) : StabilityDiagnostics K :=
  let finite := allFiniteB psi Nx Ny
  let total := totalMass psi Nx Ny dx dy
  let interior := interiorMass cap_ratio psi Nx Ny dx dy
  let d1 : StabilityDiagnostics K :=
    { d with
      current_mass := total
      current_interior_mass := interior
      left_mass := leftMass psi Nx Ny dx dy
      right_mass := rightMass psi Nx Ny dx dy
      has_non_finite := !finite
      rel_mass_drift := |total - d.initial_mass| / max (1 / 10 ^ 15) d.initial_mass
      rel_interior_mass_drift :=
        |interior - d.initial_interior_mass| / max (1 / 10 ^ 15) d.initial_interior_mass
      steps_since_baseline := d.steps_since_baseline + (if is_time_step then 1 else 0) }
  if d1.unstable then d1
  else if finite = false then
    { d1 with unstable := true, reason := "psi contains NaN/Inf" }
  else if d1.steps_since_baseline ≤ max 0 cfg.warmup_steps then d1
  else
    let totalTol := max 0 cfg.rel_mass_drift_tol
    let interiorTol := max 0 cfg.rel_interior_mass_drift_tol
    if 1 / 10 ^ 12 < cap_strength ∧ 0 < cap_ratio then
      if d1.initial_mass * (1 + totalTol) < d1.current_mass then
        { d1 with unstable := true, reason := "total mass grew unexpectedly with CAP" }
      else if interiorTol < d1.rel_interior_mass_drift then
        { d1 with unstable := true, reason := "interior mass drift exceeded tolerance" }
      else d1
    else
      if totalTol < d1.rel_mass_drift then
        { d1 with unstable := true, reason := "mass drift exceeded tolerance" }
      else if interiorTol < d1.rel_interior_mass_drift then
        { d1 with unstable := true, reason := "interior mass drift exceeded tolerance" }
      else d1

/-- `Simulation::refresh_diagnostics_baseline` (simulation.cpp): start from a
default-constructed diagnostics object, run one non-time-step pass, then
capture the baseline and clear drift, counter, flag and reason. -/
def refresh_diagnostics_baseline [FloorRing K] (cap_strength cap_ratio : K)
    (cfg : StabilityConfig K) (Nx Ny : ℕ) (dx dy : K)
    (psi : List (Cell K)) : StabilityDiagnostics K :=
  let d1 := update_diagnostics cap_strength cap_ratio cfg Nx Ny dx dy psi false emptyDiag
  { d1 with
    initial_mass := d1.current_mass
    initial_interior_mass := d1.current_interior_mass
    rel_mass_drift := 0
    rel_interior_mass_drift := 0
    steps_since_baseline := 0
    unstable := false
    reason := "" }

/-- `Simulation::mass_split` (simulation.cpp): report the cached split. -/
def mass_split (d : StabilityDiagnostics K) : K × K := (d.left_mass, d.right_mass)

/-- `sim::Box` (potential.hpp): an axis-aligned rectangle in normalized
coordinates plus a real potential height. -/
structure Box where
  x0 : ℝ
  y0 : ℝ
  x1 : ℝ
  y1 : ℝ
  height : ℝ

/-- `sim::RadialWell::Profile`.  Modelled from the spec: the copy of
potential.hpp under src lists only the first three constructors, yet the UI
callers under src (gui.cpp, field_renderer.cpp) use
`RadialWell::Profile::HarmonicOscillator`, so the current four-profile
potential.hpp/potential.cpp of the repository is missing from src; the
fourth constructor and its radial contribution below follow spec section 4.1. -/
inductive Profile where
  | Gaussian
  | SoftCoulomb
  | InverseSquare
  | HarmonicOscillator
deriving DecidableEq

/-- `sim::RadialWell` (potential.hpp). -/
structure RadialWell where
  cx : ℝ
  cy : ℝ
  strength : ℝ
  radius : ℝ
  profile : Profile

/-- `sim::PotentialField` (potential.hpp). -/
structure PotentialField where
  Nx : ℕ
  Ny : ℕ
  Lx : ℝ
  Ly : ℝ
  cap_strength : ℝ
  cap_ratio : ℝ
  boxes : List Box
  wells : List RadialWell

/-- Clamp a normalized box coordinate to a grid index,
`std::max(0, std::min(N-1, (int)std::floor(c * N)))` (potential.cpp). -/
noncomputable def clampIdx (N : ℕ) (c : ℝ) : ℤ := max 0 (min ((N : ℤ) - 1) ⌊c * N⌋)

/-- The real contribution of one box at cell `(i, j)` (potential.cpp): the
clamped, swap-normalised inclusive index rectangle receives `height`. -/
noncomputable def boxContrib (Nx Ny : ℕ) (b : Box) (i j : ℕ) : ℝ :=
  let ix0 := clampIdx Nx b.x0
  let ix1 := clampIdx Nx b.x1
  let iy0 := clampIdx Ny b.y0
  let iy1 := clampIdx Ny b.y1
  let ix := if ix1 < ix0 then (ix1, ix0) else (ix0, ix1)
  let iy := if iy1 < iy0 then (iy1, iy0) else (iy0, iy1)
  if ix.1 ≤ (i : ℤ) ∧ (i : ℤ) ≤ ix.2 ∧ iy.1 ≤ (j : ℤ) ∧ (j : ℤ) ≤ iy.2 then b.height else 0

/-- `r0 = std::max(1e-4, w.radius * std::min(Lx, Ly))` (potential.cpp). -/
noncomputable def wellR0 (pf : PotentialField) (w : RadialWell) : ℝ :=
  max (1 / 10 ^ 4) (w.radius * min pf.Lx pf.Ly)

/-- The squared physical distance from the centre of cell `(i, j)` to the
centre of well `w` (potential.cpp). -/
noncomputable def wellDist2 (pf : PotentialField) (w : RadialWell) (i j : ℕ) : ℝ :=
  let x := ((i : ℝ) + 1 / 2) * (pf.Lx / pf.Nx)
  let y := ((j : ℝ) + 1 / 2) * (pf.Ly / pf.Ny)
  (x - w.cx * pf.Lx) * (x - w.cx * pf.Lx) + (y - w.cy * pf.Ly) * (y - w.cy * pf.Ly)

/-- The real radial contribution of one well at cell `(i, j)` (potential.cpp).
The `HarmonicOscillator` branch is modelled from the spec (section 4.1): a
term proportional to `r^2 / r0^2`, sign following `strength`. -/
noncomputable def wellContrib (pf : PotentialField) (w : RadialWell) (i j : ℕ) : ℝ :=
  let r0 := wellR0 pf w
  let r0sq := r0 * r0
  let r2 := wellDist2 pf w i j
  match w.profile with
  | Profile.Gaussian => w.strength * Real.exp (-(r2 / r0sq))
  | Profile.SoftCoulomb => w.strength / Real.sqrt (r2 + r0sq)
  | Profile.InverseSquare => w.strength / (r2 + r0sq)
  | Profile.HarmonicOscillator => w.strength * (r2 / r0sq)

/-- The CAP boundary-proximity ramp along one axis with band width `w`
(potential.cpp): linear from `1` at the outermost row/column down the band,
`0` in the interior. -/
noncomputable def axisProximity (N : ℕ) (w : ℤ) (i : ℕ) : ℝ :=
  if (i : ℤ) < w then ((w - (i : ℤ) : ℤ) : ℝ) / (w : ℝ)
  else if (N : ℤ) - w ≤ (i : ℤ) then (((i : ℤ) - ((N : ℤ) - w - 1) : ℤ) : ℝ) / (w : ℝ)
  else 0

/-- The combined proximity `s = std::max(sx, sy)` at cell `(i, j)`. -/
noncomputable def spongeS (pf : PotentialField) (i j : ℕ) : ℝ :=
  max (axisProximity pf.Nx (bandWidth pf.cap_ratio pf.Nx) i)
      (axisProximity pf.Ny (bandWidth pf.cap_ratio pf.Ny) j)

/-- The imaginary CAP contribution at proximity `s` (potential.cpp):
`-(cap_strength * ramp * ramp)` with `ramp = s*s*(3 - 2*s)` when `s > 0`,
else nothing is added. -/
noncomputable def capContrib (cap_strength : ℝ) (s : ℝ) : ℝ :=
  if 0 < s then -(cap_strength * (s * s * (3 - 2 * s)) * (s * s * (3 - 2 * s))) else 0

/-- `PotentialField::build` (potential.cpp): the complex potential array in
row-major order (`i = k % Nx`, `j = k / Nx`); boxes and wells accumulate
additively on the real part, the CAP sponge lands on the imaginary part. -/
noncomputable def build (pf : PotentialField) : List ℂ :=
  (List.range (pf.Nx * pf.Ny)).map fun k =>
    (⟨(pf.boxes.map fun b => boxContrib pf.Nx pf.Ny b (k % pf.Nx) (k / pf.Nx)).sum
        + (pf.wells.map fun w => wellContrib pf w (k % pf.Nx) (k / pf.Nx)).sum,
      capContrib pf.cap_strength (spongeS pf (k % pf.Nx) (k / pf.Nx))⟩ : ℂ)

/-- `sim::Packet` (potential.hpp). -/
structure Packet where
  cx : ℝ
  cy : ℝ
  sigma : ℝ
  amplitude : ℝ
  kx : ℝ
  ky : ℝ

/-- `sim::EigenState` (simulation.hpp). -/
structure EigenState where
  energy : ℝ
  psi : List (Cell ℝ)

/-- `sim::Simulation` (simulation.hpp): the harness state. -/
structure SimState where
  Nx : ℕ
  Ny : ℕ
  Lx : ℝ
  Ly : ℝ
  dx : ℝ
  dy : ℝ
  dt : ℝ
  running : Bool
  psi : List (Cell ℝ)
  V : List ℂ
  pfield : PotentialField
  packets : List Packet
  stability : StabilityConfig ℝ
  diagnostics : StabilityDiagnostics ℝ

/-- `update_diagnostics` on a harness state, reading the CAP parameters from
the potential field exactly as the member function does. -/
noncomputable def SimState.updateDiag (s : SimState) (is_time_step : Bool) :
    StabilityDiagnostics ℝ :=
  update_diagnostics s.pfield.cap_strength s.pfield.cap_ratio s.stability
    s.Nx s.Ny s.dx s.dy s.psi is_time_step s.diagnostics

/-- `Simulation::refresh_diagnostics_baseline` as a state operation. -/
noncomputable def SimState.refreshOp (s : SimState) : SimState :=
  let d := refresh_diagnostics_baseline s.pfield.cap_strength s.pfield.cap_ratio
    s.stability s.Nx s.Ny s.dx s.dy s.psi
  { s with diagnostics := d }

/-- The complex amplitude `w` that `Simulation::injectGaussian`
(simulation.cpp) adds at cell `(i, j)`: a Gaussian envelope times the
plane-wave factor `exp(i * phase)`, written out as cosine and sine. -/
noncomputable def packetWave (Lx Ly dx dy : ℝ) (p : Packet) (i j : ℕ) : ℝ × ℝ :=
  let cx_phys := p.cx * Lx
  let cy_phys := p.cy * Ly
  let sig := max (1 / 10 ^ 12) (p.sigma * min Lx Ly)
  let x := ((i : ℝ) + 1 / 2) * dx
  let y := ((j : ℝ) + 1 / 2) * dy
  let dxc := (x - cx_phys) / sig
  let dyc := (y - cy_phys) / sig
  let g := Real.exp (-(1 / 2) * (dxc * dxc + dyc * dyc))
  let phase := p.kx * (x - cx_phys) + p.ky * (y - cy_phys)
  (p.amplitude * g * Real.cos phase, p.amplitude * g * Real.sin phase)

/-- The field mutation of `Simulation::injectGaussian`: `psi[idx(i,j)] += w`
over the whole grid.  Adding a finite value leaves each cell's finiteness
flag unchanged. -/
noncomputable def injectPsi (Nx : ℕ) (Lx Ly dx dy : ℝ) (p : Packet)
    (psi : List (Cell ℝ)) : List (Cell ℝ) :=
  psi.mapIdx fun k z =>
    let w := packetWave Lx Ly dx dy p (k % Nx) (k / Nx)
    ⟨z.re + w.1, z.im + w.2, z.finite⟩

/-- `Simulation::injectGaussian` (simulation.cpp): add the packet to `psi`,
then run a non-time-step diagnostics pass. -/
noncomputable def SimState.injectGaussianOp (s : SimState) (p : Packet) : SimState :=
  let s1 := { s with psi := injectPsi s.Nx s.Lx s.Ly s.dx s.dy p s.psi }
  { s1 with diagnostics := s1.updateDiag false }

/-- `Simulation::clearPsi`. -/
noncomputable def SimState.clearPsiOp (s : SimState) : SimState :=
  { s with psi := s.psi.map fun _ => cell0 ℝ }

/-- `Simulation::reset` (simulation.cpp): zero `psi`, sync the potential
field's geometry and rebuild `V`, re-inject every retained packet, then
refresh the diagnostics baseline. -/
noncomputable def SimState.reset (s : SimState) : SimState :=
  let pf := { s.pfield with Nx := s.Nx, Ny := s.Ny, Lx := s.Lx, Ly := s.Ly }
  let s1 := { s with psi := s.psi.map (fun _ => cell0 ℝ), pfield := pf, V := build pf }
  let s2 := s.packets.foldl (fun st p => st.injectGaussianOp p) s1
  s2.refreshOp

/-- `Simulation::resize` (simulation.cpp): clamp the dimensions to at least
8, recompute the square-cell geometry, reallocate `psi` zeroed, rebuild `V`,
and finish with `reset()`. -/
noncomputable def SimState.resize (s : SimState) (newNx newNy : ℤ) : SimState :=
  let Nx := (max 8 newNx).toNat
  let Ny := (max 8 newNy).toNat
  let minDim := max 8 (min Nx Ny)
  let cell := (1 : ℝ) / minDim
  let Lx := (Nx : ℝ) * cell
  let Ly := (Ny : ℝ) * cell
  let pf := { s.pfield with Nx := Nx, Ny := Ny, Lx := Lx, Ly := Ly }
  let psi1 : List (Cell ℝ) := List.replicate (Nx * Ny) (cell0 ℝ)
  let s1 := { s with Nx := Nx, Ny := Ny, Lx := Lx, Ly := Ly, dx := cell, dy := cell, psi := psi1, pfield := pf, V := build pf }
  s1.reset

/-- `Simulation::addBox` (simulation.cpp): append, rebuild `V`, run a
non-time-step diagnostics pass. -/
noncomputable def SimState.addBoxOp (s : SimState) (b : Box) : SimState :=
  let pf := { s.pfield with boxes := s.pfield.boxes ++ [b] }
  let s1 := { s with pfield := pf, V := build pf }
  { s1 with diagnostics := s1.updateDiag false }

/-- `Simulation::addWell` (simulation.cpp): append, rebuild `V`, run a
non-time-step diagnostics pass. -/
noncomputable def SimState.addWellOp (s : SimState) (w : RadialWell) : SimState :=
  let pf := { s.pfield with wells := s.pfield.wells ++ [w] }
  let s1 := { s with pfield := pf, V := build pf }
  { s1 with diagnostics := s1.updateDiag false }

/-- `Simulation::step` (simulation.cpp) with the CN-ADI solver call
abstracted as `solve`: `CrankNicolsonADI::step` (solver.cpp) writes only the
`psi` array, and no claim here depends on the values it writes — only on the
harness bookkeeping around the call. -/
noncomputable def SimState.stepWith (s : SimState)
    (solve : List (Cell ℝ) → List (Cell ℝ)) : SimState :=
  let s1 := { s with psi := solve s.psi }
  let s2 := { s1 with diagnostics := s1.updateDiag true }
  if s2.diagnostics.unstable && s2.stability.auto_pause_on_instability then
    { s2 with running := false }
  else s2

/-- `Simulation::apply_eigenstate` (simulation.cpp): a guarded wholesale
replacement of `psi`. -/
noncomputable def SimState.apply_eigenstate (s : SimState) (state : EigenState) : SimState :=
  if state.psi.length ≠ s.Nx * s.Ny then s
  else
    let s1 := { s with psi := state.psi, packets := [], running := false }
    s1.refreshOp

/-- The forward-elimination sweep of `sim::solve_tridiagonal` (tridiag.hpp):
`fwdSweep a b c d i` is the pair of the modified diagonal entry `b[i]` and
the modified right-hand side `d[i]` once the in-place loop has passed `i`. -/
noncomputable def fwdSweep (a b c d : ℕ → ℂ) : ℕ → ℂ × ℂ
  | 0 => (b 0, d 0)
  | i + 1 =>
    let prev := fwdSweep a b c d i
    let w := a (i + 1) / prev.1
    (b (i + 1) - w * c i, d (i + 1) - w * prev.2)

/-- The pivot `b[i]` left by the forward sweep. -/
noncomputable def pivot (a b c d : ℕ → ℂ) (i : ℕ) : ℂ := (fwdSweep a b c d i).1

/-- The right-hand side `d[i]` left by the forward sweep. -/
noncomputable def fwdRhs (a b c d : ℕ → ℂ) (i : ℕ) : ℂ := (fwdSweep a b c d i).2

/-- Back substitution of `sim::solve_tridiagonal`, counted from the bottom:
`backAux a b c d n k` is the solution entry at index `n - 1 - k`. -/
noncomputable def backAux (a b c d : ℕ → ℂ) (n : ℕ) : ℕ → ℂ
  | 0 => fwdRhs a b c d (n - 1) / pivot a b c d (n - 1)
  | k + 1 =>
    (fwdRhs a b c d (n - 2 - k) - c (n - 2 - k) * backAux a b c d n k)
      / pivot a b c d (n - 2 - k)

/-- `sim::solve_tridiagonal` (tridiag.hpp): the Thomas algorithm — forward
sweep then back substitution — as a function from the four input arrays (as
functions on indices) and the length `n` to the solution vector that the
routine leaves in `d`. -/
noncomputable def solve_tridiagonal (a b c d : ℕ → ℂ) (n : ℕ) (i : ℕ) : ℂ :=
  backAux a b c d n (n - 1 - i)

/-- A concrete 8×8 harness state (the minimum grid size) for the witnesses. -/
noncomputable def simW : SimState :=
  { Nx := 8, Ny := 8, Lx := 1, Ly := 1, dx := 1 / 8, dy := 1 / 8, dt := 1 / 1000,
    running := false, psi := List.replicate 64 (cell0 ℝ), V := [],
    pfield := ⟨8, 8, 1, 1, 1, 1 / 10, [], []⟩, packets := [],
    stability := ⟨15 / 100, 1, 8, true⟩, diagnostics := emptyDiag }

/-- A concrete packet for the witnesses. -/
noncomputable def pktW : Packet := ⟨1 / 4, 1 / 2, 1 / 20, 1, 12, 0⟩

/-- A concrete box for the witnesses. -/
noncomputable def boxW : Box := ⟨1 / 4, 1 / 4, 3 / 4, 3 / 4, 200⟩

/-- A concrete radial well for the witnesses. -/
noncomputable def wellW : RadialWell := ⟨1 / 2, 1 / 2, 200, 1 / 10, Profile.HarmonicOscillator⟩

/-- Concrete tridiagonal system of length 2 for the witness:
sub-diagonal (unused, 2), diagonal (1, 3), super-diagonal (1, unused),
right-hand side (2, 8). -/
noncomputable def aT : ℕ → ℂ := fun i => if i = 0 then 0 else 2

/-- Diagonal of the concrete witness system. -/
noncomputable def bT : ℕ → ℂ := fun i => if i = 0 then 1 else 3

/-- Super-diagonal of the concrete witness system. -/
noncomputable def cT : ℕ → ℂ := fun _ => 1

/-- Right-hand side of the concrete witness system. -/
noncomputable def dT : ℕ → ℂ := fun i => if i = 0 then 2 else 8

/-- The default `StabilityConfig` values of simulation.hpp, at `ℚ`. -/
def cfgQ : StabilityConfig ℚ := ⟨15 / 100, 1, 8, true⟩

/-- An 8×8 all-zero field at `ℚ`. -/
def zeroPsiQ : List (Cell ℚ) := List.replicate 64 (cell0 ℚ)

/-- An 8×8 field with a single non-finite cell at `ℚ`. -/
def nanPsiQ : List (Cell ℚ) := (⟨0, 0, false⟩ : Cell ℚ) :: List.replicate 63 (cell0 ℚ)

/-- A diagnostics record past its warmup with unit baselines, at `ℚ`. -/
def dW : StabilityDiagnostics ℚ := ⟨1, 0, 1, 0, 0, 0, 0, 0, 100, false, false, ""⟩

/-- An 8×8 field with a single massive interior cell, at `ℚ`. -/
def psiW : List (Cell ℚ) := (List.replicate 64 (cell0 ℚ)).set 27 ⟨2, 0, true⟩

/-- A 9×8 field whose only mass sits in the midline column `i = 4`, at `ℚ`. -/
def midPsiQ : List (Cell ℚ) :=
  (List.replicate 72 (cell0 ℚ)).set 4 ⟨1, 0, true⟩

section DiagLemmas

variable [FloorRing K] (cap_strength cap_ratio : K) (cfg : StabilityConfig K)
variable (Nx Ny : ℕ) (dx dy : K) (psi : List (Cell K)) (ts : Bool)
variable (d : StabilityDiagnostics K)

theorem ud_current_mass :
    (update_diagnostics cap_strength cap_ratio cfg Nx Ny dx dy psi ts d).current_mass
      = totalMass psi Nx Ny dx dy := by
  simp only [update_diagnostics]
  split_ifs <;> rfl

theorem ud_left_mass :
    (update_diagnostics cap_strength cap_ratio cfg Nx Ny dx dy psi ts d).left_mass
      = leftMass psi Nx Ny dx dy := by
  simp only [update_diagnostics]
  split_ifs <;> rfl

theorem ud_right_mass :
    (update_diagnostics cap_strength cap_ratio cfg Nx Ny dx dy psi ts d).right_mass
      = rightMass psi Nx Ny dx dy := by
  simp only [update_diagnostics]
  split_ifs <;> rfl

theorem ud_current_interior :
    (update_diagnostics cap_strength cap_ratio cfg Nx Ny dx dy psi ts d).current_interior_mass
      = interiorMass cap_ratio psi Nx Ny dx dy := by
  simp only [update_diagnostics]
  split_ifs <;> rfl

theorem ud_initial_mass :
    (update_diagnostics cap_strength cap_ratio cfg Nx Ny dx dy psi ts d).initial_mass
      = d.initial_mass := by
  simp only [update_diagnostics]
  split_ifs <;> rfl

theorem ud_initial_interior :
    (update_diagnostics cap_strength cap_ratio cfg Nx Ny dx dy psi ts d).initial_interior_mass
      = d.initial_interior_mass := by
  simp only [update_diagnostics]
  split_ifs <;> rfl

theorem ud_steps :
    (update_diagnostics cap_strength cap_ratio cfg Nx Ny dx dy psi ts d).steps_since_baseline
      = d.steps_since_baseline + (if ts then 1 else 0) := by
  simp only [update_diagnostics]
  split_ifs <;> rfl

theorem ud_sticky (h : d.unstable = true) :
    (update_diagnostics cap_strength cap_ratio cfg Nx Ny dx dy psi ts d).unstable = true ∧
    (update_diagnostics cap_strength cap_ratio cfg Nx Ny dx dy psi ts d).reason = d.reason := by
  unfold update_diagnostics
  simp [h]

end DiagLemmas

theorem gridSum (g : ℕ → K) (Nx Ny : ℕ) :
    ∑ k ∈ Finset.range (Nx * Ny), g k
      = ∑ j ∈ Finset.range Ny, ∑ i ∈ Finset.range Nx, g (j * Nx + i) := by
  induction Ny with
  | zero => simp
  | succ m ih =>
    have hsplit : Nx * (m + 1) = Nx * m + Nx := by ring
    rw [hsplit, Finset.sum_range_add, Finset.sum_range_succ, ih]
    congr 1
    refine Finset.sum_congr rfl fun i _ => ?_
    congr 1
    ring

theorem filter_lt_range (n m : ℕ) (h : m ≤ n) :
    (Finset.range n).filter (fun i => i < m) = Finset.range m := by
  ext i
  simp only [Finset.mem_filter, Finset.mem_range]
  omega

theorem filter_not_lt_range (n m : ℕ) :
    (Finset.range n).filter (fun i => ¬ i < m) = Finset.Ico m n := by
  ext i
  simp only [Finset.mem_filter, Finset.mem_range, Finset.mem_Ico]
  omega

theorem leftMass_by_columns (psi : List (Cell K)) (Nx Ny : ℕ) (dx dy : K) :
    leftMass psi Nx Ny dx dy
      = ∑ j ∈ Finset.range Ny, ∑ i ∈ Finset.range (Nx / 2), cellMass psi dx dy (j * Nx + i) := by
  unfold leftMass
  rw [gridSum (fun k => if k % Nx < Nx / 2 then cellMass psi dx dy k else 0) Nx Ny]
  refine Finset.sum_congr rfl fun j _ => ?_
  have hswap : ∀ i ∈ Finset.range Nx,
      (if (j * Nx + i) % Nx < Nx / 2 then cellMass psi dx dy (j * Nx + i) else 0)
        = if i < Nx / 2 then cellMass psi dx dy (j * Nx + i) else 0 := by
    intro i hi
    rw [Nat.mul_add_mod_of_lt (Finset.mem_range.mp hi)]
  rw [Finset.sum_congr rfl hswap, ← Finset.sum_filter,
    filter_lt_range Nx (Nx / 2) (Nat.div_le_self Nx 2)]

theorem rightMass_by_columns (psi : List (Cell K)) (Nx Ny : ℕ) (dx dy : K) :
    rightMass psi Nx Ny dx dy
      = ∑ j ∈ Finset.range Ny, ∑ i ∈ Finset.Ico (Nx / 2) Nx, cellMass psi dx dy (j * Nx + i) := by
  unfold rightMass
  rw [gridSum (fun k => if k % Nx < Nx / 2 then 0 else cellMass psi dx dy k) Nx Ny]
  refine Finset.sum_congr rfl fun j _ => ?_
  have hswap : ∀ i ∈ Finset.range Nx,
      (if (j * Nx + i) % Nx < Nx / 2 then (0 : K) else cellMass psi dx dy (j * Nx + i))
        = if ¬ i < Nx / 2 then cellMass psi dx dy (j * Nx + i) else 0 := by
    intro i hi
    rw [Nat.mul_add_mod_of_lt (Finset.mem_range.mp hi)]
    by_cases h : i < Nx / 2 <;> simp [h]
  rw [Finset.sum_congr rfl hswap, ← Finset.sum_filter, filter_not_lt_range]

/-- C2 (amended): after every diagnostics pass, `mass_split` returns the
cached totals in which `left` is the summed mass of all cells in the columns
strictly left of `mid = Nx / 2` and `right` is the summed mass of all cells
in the columns `i >= Nx / 2` — the midline column, when `Nx` is odd, is
counted in `right`, not excluded; both cached values are recomputed by every
diagnostics pass. -/
theorem claim_C2 {K : Type} [LinearOrderedField K] [FloorRing K]
    (cap_strength cap_ratio : K) (cfg : StabilityConfig K) (Nx Ny : ℕ) (dx dy : K)
    (psi : List (Cell K)) (ts : Bool) (d : StabilityDiagnostics K) :
    mass_split (update_diagnostics cap_strength cap_ratio cfg Nx Ny dx dy psi ts d)
      = (∑ j ∈ Finset.range Ny, ∑ i ∈ Finset.range (Nx / 2), cellMass psi dx dy (j * Nx + i),
         ∑ j ∈ Finset.range Ny, ∑ i ∈ Finset.Ico (Nx / 2) Nx, cellMass psi dx dy (j * Nx + i)) := by
  unfold mass_split
  rw [ud_left_mass, ud_right_mass, leftMass_by_columns, rightMass_by_columns]

theorem getC_set_replicate (n k0 k : ℕ) (z : Cell K) (hk : k0 < n) :
    getC ((List.replicate n (cell0 K)).set k0 z) k = if k = k0 then z else cell0 K := by
  unfold getC
  rw [List.getD_eq_getElem?_getD, List.getElem?_set]
  simp only [List.length_replicate, List.getElem?_replicate]
  by_cases h : k0 = k
  · subst h
    simp [hk]
  · have h2 : ¬ k = k0 := fun hh => h hh.symm
    simp only [h, if_false, h2]
    by_cases h3 : k < n
    · simp [h3]
    · simp [h3]

theorem cellMass_single (n k0 k : ℕ) (z : Cell K) (dx dy : K) (hk : k0 < n) :
    cellMass ((List.replicate n (cell0 K)).set k0 z) dx dy k
      = if k = k0 then normSq z * dx * dy else 0 := by
  unfold cellMass
  rw [getC_set_replicate n k0 k z hk]
  by_cases h : k = k0 <;> simp [h, normSq, cell0]

theorem cellMass_midPsiQ (k : ℕ) : cellMass midPsiQ 1 1 k = if k = 4 then 1 else 0 := by
  unfold midPsiQ
  rw [cellMass_single 72 4 k _ 1 1 (by norm_num)]
  by_cases h : k = 4 <;> simp [h, normSq]

/-- C2 counterexample: on a 9×8 grid whose only mass sits in the midline
column `i = 4 = Nx / 2`, the diagnostics pass does not return the totals the
claim describes — the mass strictly right of column 4 is 0, while the cached
`right` holds the midline column's mass. -/
theorem claim_C2_cex :
    ¬ (mass_split (update_diagnostics (1 : ℚ) (1 / 10) cfgQ 9 8 1 1 midPsiQ false emptyDiag)
        = (∑ j ∈ Finset.range 8, ∑ i ∈ Finset.range 4, cellMass midPsiQ 1 1 (j * 9 + i),
           ∑ j ∈ Finset.range 8, ∑ i ∈ Finset.Ico 5 9, cellMass midPsiQ 1 1 (j * 9 + i))) := by
  intro h
  have hr : rightMass midPsiQ 9 8 1 1 = 1 := by
    have hpt : ∀ k ∈ Finset.range (9 * 8),
        (if k % 9 < 9 / 2 then (0 : ℚ) else cellMass midPsiQ 1 1 k)
          = if k = 4 then 1 else 0 := by
      intro k _
      by_cases hk : k = 4
      · subst hk
        norm_num [cellMass_midPsiQ]
      · rw [cellMass_midPsiQ k]
        simp [hk]
    unfold rightMass
    rw [Finset.sum_congr rfl hpt, Finset.sum_ite_eq' (Finset.range (9 * 8)) 4 fun _ => (1 : ℚ)]
    norm_num
  have hs : (∑ j ∈ Finset.range 8, ∑ i ∈ Finset.Ico 5 9, cellMass midPsiQ 1 1 (j * 9 + i))
      = (0 : ℚ) := by
    refine Finset.sum_eq_zero fun j hj => Finset.sum_eq_zero fun i hi => ?_
    rw [cellMass_midPsiQ, if_neg]
    simp only [Finset.mem_range] at hj
    simp only [Finset.mem_Ico] at hi
    omega
  have h2 := congrArg Prod.snd h
  simp only [mass_split] at h2
  rw [ud_right_mass, hr, hs] at h2
  exact one_ne_zero h2

/-- C3: from a state whose `unstable` flag is clear, any diagnostics pass
(time step or not, warmed up or not) over a field with a non-finite cell
sets `unstable` and the reason string "psi contains NaN/Inf". -/
theorem claim_C3 {K : Type} [LinearOrderedField K] [FloorRing K]
    (cap_strength cap_ratio : K) (cfg : StabilityConfig K) (Nx Ny : ℕ) (dx dy : K)
    (psi : List (Cell K)) (ts : Bool) (d : StabilityDiagnostics K)
    (hst : d.unstable = false) (hfin : allFiniteB psi Nx Ny = false) :
    (update_diagnostics cap_strength cap_ratio cfg Nx Ny dx dy psi ts d).unstable = true ∧
    (update_diagnostics cap_strength cap_ratio cfg Nx Ny dx dy psi ts d).reason
      = "psi contains NaN/Inf" := by
  simp only [update_diagnostics]
  simp [hst, hfin]

/-- Witness for C3: an 8×8 state with one NaN cell, fresh diagnostics, a
non-time-step pass well inside the warmup window. -/
theorem claim_C3_witness :
    (emptyDiag (K := ℚ)).unstable = false ∧
    allFiniteB nanPsiQ 8 8 = false ∧
    (update_diagnostics (1 : ℚ) (1 / 10) cfgQ 8 8 (1 / 8) (1 / 8) nanPsiQ false
        emptyDiag).unstable = true ∧
    (update_diagnostics (1 : ℚ) (1 / 10) cfgQ 8 8 (1 / 8) (1 / 8) nanPsiQ false
        emptyDiag).reason = "psi contains NaN/Inf" := by
  refine ⟨by decide, by decide, ?_⟩
  exact claim_C3 1 (1 / 10) cfgQ 8 8 (1 / 8) (1 / 8) nanPsiQ false emptyDiag
    (by decide) (by decide)

/-- C5: the `unstable` flag is sticky — a diagnostics pass on a flagged state
leaves flag and reason unchanged — and an explicit
`refresh_diagnostics_baseline` clears the flag and the reason, zeroes the
warmup counter and recaptures `initial_mass` / `initial_interior_mass` from
the current field. -/
theorem claim_C5 {K : Type} [LinearOrderedField K] [FloorRing K]
    (cap_strength cap_ratio : K) (cfg : StabilityConfig K) (Nx Ny : ℕ) (dx dy : K)
    (psi : List (Cell K)) (ts : Bool) (d : StabilityDiagnostics K) :
    (d.unstable = true →
      (update_diagnostics cap_strength cap_ratio cfg Nx Ny dx dy psi ts d).unstable = true ∧
      (update_diagnostics cap_strength cap_ratio cfg Nx Ny dx dy psi ts d).reason = d.reason) ∧
    ((refresh_diagnostics_baseline cap_strength cap_ratio cfg Nx Ny dx dy psi).unstable
        = false ∧
     (refresh_diagnostics_baseline cap_strength cap_ratio cfg Nx Ny dx dy psi).reason = "" ∧
     (refresh_diagnostics_baseline cap_strength cap_ratio cfg Nx Ny dx dy
        psi).steps_since_baseline = 0 ∧
     (refresh_diagnostics_baseline cap_strength cap_ratio cfg Nx Ny dx dy psi).initial_mass
        = totalMass psi Nx Ny dx dy ∧
     (refresh_diagnostics_baseline cap_strength cap_ratio cfg Nx Ny dx dy
        psi).initial_interior_mass = interiorMass cap_ratio psi Nx Ny dx dy) := by
  refine ⟨fun h => ud_sticky cap_strength cap_ratio cfg Nx Ny dx dy psi ts d h,
    ?_, ?_, ?_, ?_, ?_⟩ <;>
    simp [refresh_diagnostics_baseline, ud_current_mass, ud_current_interior]

/-- Witness for C5: a pass over an already-flagged state keeps flag and
reason. -/
theorem claim_C5_witness :
    (⟨0, 0, 0, 0, 0, 0, 0, 0, 0, false, true, "boom"⟩ : StabilityDiagnostics ℚ).unstable
        = true ∧
    (update_diagnostics (1 : ℚ) (1 / 10) cfgQ 8 8 (1 / 8) (1 / 8) zeroPsiQ true
        ⟨0, 0, 0, 0, 0, 0, 0, 0, 0, false, true, "boom"⟩).unstable = true ∧
    (update_diagnostics (1 : ℚ) (1 / 10) cfgQ 8 8 (1 / 8) (1 / 8) zeroPsiQ true
        ⟨0, 0, 0, 0, 0, 0, 0, 0, 0, false, true, "boom"⟩).reason = "boom" := by
  refine ⟨by decide, ?_⟩
  have h := (claim_C5 (1 : ℚ) (1 / 10) cfgQ 8 8 (1 / 8) (1 / 8) zeroPsiQ true
    ⟨0, 0, 0, 0, 0, 0, 0, 0, 0, false, true, "boom"⟩).1 (by decide)
  exact ⟨h.1, h.2⟩

/-- C6: while the warmup window is open (the post-increment counter does not
exceed `max 0 warmup_steps`) a pass over a finite, unflagged field applies no
drift check and leaves `unstable` clear; the counter is incremented exactly
by the `is_time_step` flag, so the harness operations that pass `false`
(injecting a packet, adding a box or a well) never consume warmup budget
while `step` (which passes `true`) always does. -/
theorem claim_C6 :
    (∀ (K : Type) [LinearOrderedField K] [FloorRing K]
        (cap_strength cap_ratio : K) (cfg : StabilityConfig K) (Nx Ny : ℕ) (dx dy : K)
        (psi : List (Cell K)) (ts : Bool) (d : StabilityDiagnostics K),
      (update_diagnostics cap_strength cap_ratio cfg Nx Ny dx dy psi ts
          d).steps_since_baseline = d.steps_since_baseline + (if ts then 1 else 0) ∧
      (d.unstable = false → allFiniteB psi Nx Ny = true →
        d.steps_since_baseline + (if ts then 1 else 0) ≤ max 0 cfg.warmup_steps →
        (update_diagnostics cap_strength cap_ratio cfg Nx Ny dx dy psi ts d).unstable
          = false)) ∧
    (∀ (s : SimState) (p : Packet) (b : Box) (w : RadialWell)
        (solve : List (Cell ℝ) → List (Cell ℝ)),
      (s.injectGaussianOp p).diagnostics.steps_since_baseline
          = s.diagnostics.steps_since_baseline ∧
      (s.addBoxOp b).diagnostics.steps_since_baseline
          = s.diagnostics.steps_since_baseline ∧
      (s.addWellOp w).diagnostics.steps_since_baseline
          = s.diagnostics.steps_since_baseline ∧
      (s.stepWith solve).diagnostics.steps_since_baseline
          = s.diagnostics.steps_since_baseline + 1) := by
  constructor
  · intro K _ _ cap_strength cap_ratio cfg Nx Ny dx dy psi ts d
    refine ⟨ud_steps cap_strength cap_ratio cfg Nx Ny dx dy psi ts d, ?_⟩
    intro hst hfin hgate
    simp only [update_diagnostics]
    simp [hst, hfin, hgate]
  · intro s p b w solve
    refine ⟨?_, ?_, ?_, ?_⟩
    · simp [SimState.injectGaussianOp, SimState.updateDiag, ud_steps]
    · simp [SimState.addBoxOp, SimState.updateDiag, ud_steps]
    · simp [SimState.addWellOp, SimState.updateDiag, ud_steps]
    · simp only [SimState.stepWith, SimState.updateDiag]
      split_ifs <;> simp [ud_steps]

/-- Witness for C6: a fresh 8×8 state inside the warmup window stays stable
through a non-time-step pass, and a `step` on a concrete harness state
advances the counter by one. -/
theorem claim_C6_witness :
    (emptyDiag (K := ℚ)).unstable = false ∧
    allFiniteB zeroPsiQ 8 8 = true ∧
    (emptyDiag (K := ℚ)).steps_since_baseline + (if false then 1 else 0)
        ≤ max 0 cfgQ.warmup_steps ∧
    (update_diagnostics (1 : ℚ) (1 / 10) cfgQ 8 8 (1 / 8) (1 / 8) zeroPsiQ false
        emptyDiag).unstable = false ∧
    (simW.stepWith id).diagnostics.steps_since_baseline
        = simW.diagnostics.steps_since_baseline + 1 := by
  refine ⟨by decide, by decide, by decide, ?_, ?_⟩
  · exact (claim_C6.1 ℚ (1 : ℚ) (1 / 10) cfgQ 8 8 (1 / 8) (1 / 8) zeroPsiQ false emptyDiag).2
      (by decide) (by decide) (by decide)
  · exact (claim_C6.2 simW pktW boxW wellW id).2.2.2

/-- C4: with the flag clear, every scanned cell finite, the warmup window
over and CAP meaningfully enabled (`cap_strength > 1e-12`, `cap_ratio > 0`),
a diagnostics pass flags instability exactly when the current total mass
exceeds `initial_mass * (1 + total_tol)` or the relative interior-mass drift
exceeds its tolerance; in particular the total-mass check never fires on a
mass decrease from a nonnegative baseline, however large. -/
theorem claim_C4 {K : Type} [LinearOrderedField K] [FloorRing K]
    (cap_strength cap_ratio : K) (cfg : StabilityConfig K) (Nx Ny : ℕ) (dx dy : K)
    (psi : List (Cell K)) (ts : Bool) (d : StabilityDiagnostics K)
    (hst : d.unstable = false) (hfin : allFiniteB psi Nx Ny = true)
    (hgate : max 0 cfg.warmup_steps < d.steps_since_baseline + (if ts then 1 else 0))
    (hcs : 1 / 10 ^ 12 < cap_strength) (hcr : 0 < cap_ratio) :
    ((update_diagnostics cap_strength cap_ratio cfg Nx Ny dx dy psi ts d).unstable = true ↔
      (d.initial_mass * (1 + max 0 cfg.rel_mass_drift_tol) < totalMass psi Nx Ny dx dy ∨
       max 0 cfg.rel_interior_mass_drift_tol <
         |interiorMass cap_ratio psi Nx Ny dx dy - d.initial_interior_mass|
           / max (1 / 10 ^ 15) d.initial_interior_mass)) ∧
    (0 ≤ d.initial_mass → totalMass psi Nx Ny dx dy ≤ d.initial_mass →
      ¬ d.initial_mass * (1 + max 0 cfg.rel_mass_drift_tol) < totalMass psi Nx Ny dx dy) := by
  have hgate2 : ¬ (d.steps_since_baseline + (if ts then 1 else 0) ≤ max 0 cfg.warmup_steps) :=
    not_le.mpr hgate
  constructor
  · simp only [update_diagnostics]
    rw [if_neg (by simp [hst]), if_neg (by simp [hfin]), if_neg (by simpa using hgate2),
      if_pos ⟨hcs, hcr⟩]
    by_cases h1 : d.initial_mass * (1 + max 0 cfg.rel_mass_drift_tol) < totalMass psi Nx Ny dx dy
    · rw [if_pos (by simpa using h1)]
      exact iff_of_true rfl (Or.inl h1)
    · rw [if_neg (by simpa using h1)]
      by_cases h2 : max 0 cfg.rel_interior_mass_drift_tol <
          |interiorMass cap_ratio psi Nx Ny dx dy - d.initial_interior_mass|
            / max (1 / 10 ^ 15) d.initial_interior_mass
      · rw [if_pos (by simpa using h2)]
        exact iff_of_true rfl (Or.inr h2)
      · rw [if_neg (by simpa using h2)]
        exact iff_of_false (by simp [hst]) (not_or.mpr ⟨h1, h2⟩)
  · intro h0 hle hlt
    have h1 : (0 : K) ≤ max 0 cfg.rel_mass_drift_tol := le_max_left 0 _
    nlinarith

/-- Witness for C4: a CAP-enabled 8×8 state past its warmup window. -/
theorem claim_C4_witness :
    dW.unstable = false ∧
    allFiniteB psiW 8 8 = true ∧
    max 0 cfgQ.warmup_steps < dW.steps_since_baseline + (if false then 1 else 0) ∧
    (1 : ℚ) / 10 ^ 12 < 1 ∧
    (0 : ℚ) < 1 / 10 ∧
    (((update_diagnostics (1 : ℚ) (1 / 10) cfgQ 8 8 (1 / 8) (1 / 8) psiW false dW).unstable
          = true ↔
        (dW.initial_mass * (1 + max 0 cfgQ.rel_mass_drift_tol)
            < totalMass psiW 8 8 (1 / 8) (1 / 8) ∨
         max 0 cfgQ.rel_interior_mass_drift_tol <
           |interiorMass (1 / 10) psiW 8 8 (1 / 8) (1 / 8) - dW.initial_interior_mass|
             / max (1 / 10 ^ 15) dW.initial_interior_mass)) ∧
      (0 ≤ dW.initial_mass → totalMass psiW 8 8 (1 / 8) (1 / 8) ≤ dW.initial_mass →
        ¬ dW.initial_mass * (1 + max 0 cfgQ.rel_mass_drift_tol)
            < totalMass psiW 8 8 (1 / 8) (1 / 8))) := by
  refine ⟨by decide, by decide, by decide, by norm_num, by norm_num, ?_⟩
  exact claim_C4 1 (1 / 10) cfgQ 8 8 (1 / 8) (1 / 8) psiW false dW (by decide) (by decide)
    (by decide) (by norm_num) (by norm_num)

theorem build_getD (pf : PotentialField) (k : ℕ) (hk : k < pf.Nx * pf.Ny) :
    (build pf).getD k 0
      = (⟨(pf.boxes.map fun b => boxContrib pf.Nx pf.Ny b (k % pf.Nx) (k / pf.Nx)).sum
            + (pf.wells.map fun w => wellContrib pf w (k % pf.Nx) (k / pf.Nx)).sum,
          capContrib pf.cap_strength (spongeS pf (k % pf.Nx) (k / pf.Nx))⟩ : ℂ) := by
  unfold build
  rw [List.getD_eq_getElem?_getD, List.getElem?_map, List.getElem?_range hk]
  rfl

/-- C1: the radial-well profile selector has exactly the four profiles, and a
`HarmonicOscillator` well contributes, at every cell of the real part that
`build` produces, the closed-form term `strength * (r^2 / r0^2)`, whose sign
follows `strength`. -/
theorem claim_C1 :
    (∀ p : Profile, p = Profile.Gaussian ∨ p = Profile.SoftCoulomb ∨
      p = Profile.InverseSquare ∨ p = Profile.HarmonicOscillator) ∧
    (∀ (pf : PotentialField) (k : ℕ), k < pf.Nx * pf.Ny →
      ((build pf).getD k 0).re
        = (pf.boxes.map fun b => boxContrib pf.Nx pf.Ny b (k % pf.Nx) (k / pf.Nx)).sum
          + (pf.wells.map fun w => wellContrib pf w (k % pf.Nx) (k / pf.Nx)).sum) ∧
    (∀ (pf : PotentialField) (w : RadialWell) (i j : ℕ),
      w.profile = Profile.HarmonicOscillator →
      wellContrib pf w i j
          = w.strength * (wellDist2 pf w i j / (wellR0 pf w * wellR0 pf w)) ∧
        (0 ≤ w.strength → 0 ≤ wellContrib pf w i j) ∧
        (w.strength ≤ 0 → wellContrib pf w i j ≤ 0)) := by
  refine ⟨fun p => by cases p <;> simp, fun pf k hk => by rw [build_getD pf k hk], ?_⟩
  intro pf w i j hp
  have hr0 : 0 < wellR0 pf w := by
    unfold wellR0
    exact lt_max_iff.mpr (Or.inl (by norm_num))
  have hr0sq : 0 < wellR0 pf w * wellR0 pf w := mul_pos hr0 hr0
  have hr2 : 0 ≤ wellDist2 pf w i j := by
    unfold wellDist2
    exact add_nonneg (mul_self_nonneg _) (mul_self_nonneg _)
  have hform : wellContrib pf w i j
      = w.strength * (wellDist2 pf w i j / (wellR0 pf w * wellR0 pf w)) := by
    unfold wellContrib
    rw [hp]
  have hfac : 0 ≤ wellDist2 pf w i j / (wellR0 pf w * wellR0 pf w) :=
    div_nonneg hr2 hr0sq.le
  refine ⟨hform, fun hs => ?_, fun hs => ?_⟩
  · rw [hform]
    exact mul_nonneg hs hfac
  · rw [hform]
    have := mul_nonneg (neg_nonneg.mpr hs) hfac
    linarith

/-- Witness for C1: the harmonic-oscillator well of the concrete fixtures,
evaluated at cell (0, 0) of the 8×8 potential field. -/
theorem claim_C1_witness :
    wellW.profile = Profile.HarmonicOscillator ∧
    (0 : ℝ) ≤ wellW.strength ∧
    wellContrib simW.pfield wellW 0 0
        = wellW.strength * (wellDist2 simW.pfield wellW 0 0
            / (wellR0 simW.pfield wellW * wellR0 simW.pfield wellW)) ∧
    0 ≤ wellContrib simW.pfield wellW 0 0 := by
  have h := claim_C1.2.2 simW.pfield wellW 0 0 rfl
  have hs : (0 : ℝ) ≤ wellW.strength := by norm_num [wellW]
  exact ⟨rfl, hs, h.1, h.2.1 hs⟩

theorem bandWidth_ge_one (ratio : ℝ) (N : ℕ) : 1 ≤ bandWidth ratio N :=
  le_max_left 1 _

theorem axisProximity_nonneg (N : ℕ) (w : ℤ) (i : ℕ) (hw : 1 ≤ w) :
    0 ≤ axisProximity N w i := by
  unfold axisProximity
  have hw0 : (0 : ℝ) < (w : ℝ) := by exact_mod_cast hw.trans_lt' (by norm_num)
  split_ifs with h1 h2
  · apply div_nonneg _ hw0.le
    have : (0 : ℤ) ≤ w - (i : ℤ) := by omega
    exact_mod_cast this
  · apply div_nonneg _ hw0.le
    have : (0 : ℤ) ≤ (i : ℤ) - ((N : ℤ) - w - 1) := by omega
    exact_mod_cast this
  · exact le_refl 0

theorem axisProximity_le_one (N : ℕ) (w : ℤ) (i : ℕ) (hw : 1 ≤ w)
    (hi : (i : ℤ) ≤ (N : ℤ) - 1) : axisProximity N w i ≤ 1 := by
  unfold axisProximity
  have hw0 : (0 : ℝ) < (w : ℝ) := by exact_mod_cast hw.trans_lt' (by norm_num)
  split_ifs with h1 h2
  · rw [div_le_one hw0]
    have h3 : w - (i : ℤ) ≤ w := by omega
    exact_mod_cast h3
  · rw [div_le_one hw0]
    have h3 : (i : ℤ) - ((N : ℤ) - w - 1) ≤ w := by omega
    exact_mod_cast h3
  · norm_num

theorem axisProximity_mono_left (N : ℕ) (w : ℤ) (i i' : ℕ) (hw : 1 ≤ w)
    (hle : i ≤ i') (hi' : (i' : ℤ) < (N : ℤ) - w) :
    axisProximity N w i' ≤ axisProximity N w i := by
  have hw0 : (0 : ℝ) < (w : ℝ) := by exact_mod_cast hw.trans_lt' (by norm_num)
  by_cases h1 : (i' : ℤ) < w
  · have h2 : (i : ℤ) < w := by omega
    unfold axisProximity
    rw [if_pos h1, if_pos h2]
    gcongr
  · have h3 : axisProximity N w i' = 0 := by
      unfold axisProximity
      rw [if_neg h1, if_neg (by omega)]
    rw [h3]
    exact axisProximity_nonneg N w i hw

theorem axisProximity_mono_right (N : ℕ) (w : ℤ) (i i' : ℕ) (hw : 1 ≤ w)
    (hle : i' ≤ i) (hi' : w ≤ (i' : ℤ)) :
    axisProximity N w i' ≤ axisProximity N w i := by
  have hw0 : (0 : ℝ) < (w : ℝ) := by exact_mod_cast hw.trans_lt' (by norm_num)
  by_cases h1 : (N : ℤ) - w ≤ (i' : ℤ)
  · have h2 : (N : ℤ) - w ≤ (i : ℤ) := by omega
    unfold axisProximity
    rw [if_neg (by omega), if_pos h1, if_neg (by omega), if_pos h2]
    gcongr
  · have h3 : axisProximity N w i' = 0 := by
      unfold axisProximity
      rw [if_neg (by omega), if_neg h1]
    rw [h3]
    exact axisProximity_nonneg N w i hw

theorem axisProximity_inner (N : ℕ) (w : ℤ) (i : ℕ) (h1 : w ≤ (i : ℤ))
    (h2 : (i : ℤ) < (N : ℤ) - w) : axisProximity N w i = 0 := by
  unfold axisProximity
  rw [if_neg (by omega), if_neg (by omega)]

theorem ramp_nonneg (s : ℝ) (_h0 : 0 ≤ s) (h1 : s ≤ 1) : 0 ≤ s * s * (3 - 2 * s) := by
  nlinarith

theorem ramp_mono (s t : ℝ) (h0 : 0 ≤ s) (hst : s ≤ t) (h1 : t ≤ 1) :
    s * s * (3 - 2 * s) ≤ t * t * (3 - 2 * t) := by
  have hs1 : s ≤ 1 := hst.trans h1
  have ht0 : 0 ≤ t := h0.trans hst
  nlinarith [mul_nonneg (sub_nonneg.2 hst) (mul_nonneg ht0 (sub_nonneg.2 h1)),
    mul_nonneg (sub_nonneg.2 hst) (mul_nonneg h0 (sub_nonneg.2 hs1)),
    mul_nonneg (sub_nonneg.2 hst) (mul_nonneg ht0 (sub_nonneg.2 hs1)),
    mul_nonneg (sub_nonneg.2 hst) (mul_nonneg h0 (sub_nonneg.2 h1))]

theorem capContrib_nonpos (str s : ℝ) (hstr : 0 ≤ str) : capContrib str s ≤ 0 := by
  unfold capContrib
  split_ifs with h
  · have h2 : 0 ≤ str * (s * s * (3 - 2 * s)) * (s * s * (3 - 2 * s)) := by
      rw [mul_assoc]
      exact mul_nonneg hstr (mul_self_nonneg _)
    linarith
  · exact le_refl 0

theorem capContrib_mono (str s t : ℝ) (hstr : 0 ≤ str) (h0 : 0 ≤ s) (hst : s ≤ t)
    (h1 : t ≤ 1) : capContrib str t ≤ capContrib str s := by
  unfold capContrib
  split_ifs with ht hs hs
  · have hrs := ramp_nonneg s h0 (le_trans hst h1)
    have hrt := ramp_nonneg t (le_trans h0 hst) h1
    have hm := ramp_mono s t h0 hst h1
    have h2 := mul_le_mul_of_nonneg_left (mul_le_mul hm hm hrs hrt) hstr
    nlinarith [h2]
  · have h2 : 0 ≤ str * (t * t * (3 - 2 * t)) * (t * t * (3 - 2 * t)) := by
      rw [mul_assoc]
      exact mul_nonneg hstr (mul_self_nonneg _)
    linarith
  · linarith
  · exact le_refl 0

theorem capMagMono (str s t : ℝ) (hstr : 0 ≤ str) (h0 : 0 ≤ s) (hst : s ≤ t) (h1 : t ≤ 1) :
    |capContrib str s| ≤ |capContrib str t| := by
  rw [abs_of_nonpos (capContrib_nonpos str s hstr), abs_of_nonpos (capContrib_nonpos str t hstr)]
  have h2 := capContrib_mono str s t hstr h0 hst h1
  linarith

theorem spongeS_nonneg (pf : PotentialField) (i j : ℕ) : 0 ≤ spongeS pf i j :=
  le_max_of_le_left (axisProximity_nonneg _ _ _ (bandWidth_ge_one _ _))

theorem spongeS_le_one (pf : PotentialField) (i j : ℕ) (hi : (i : ℤ) ≤ (pf.Nx : ℤ) - 1)
    (hj : (j : ℤ) ≤ (pf.Ny : ℤ) - 1) : spongeS pf i j ≤ 1 :=
  max_le (axisProximity_le_one _ _ _ (bandWidth_ge_one _ _) hi)
    (axisProximity_le_one _ _ _ (bandWidth_ge_one _ _) hj)

/-- C8: for every built potential with `cap_strength >= 0`, the CAP sponge
contribution to the imaginary part of `V` is nonpositive at every cell, is
exactly zero at every cell outside the edge bands of width
`wx = max(1, round(cap_ratio*Nx))` columns and `wy = max(1, round(cap_ratio*Ny))`
rows (a band at least one cell wide), takes the maximum of the two axis
proximities at corners, and its magnitude is non-increasing as the cell index
moves from any of the four domain edges toward the interior. -/
theorem claim_C8 (pf : PotentialField) (hstr : 0 ≤ pf.cap_strength) :
    (∀ k : ℕ, k < pf.Nx * pf.Ny →
      ((build pf).getD k 0).im
          = capContrib pf.cap_strength (spongeS pf (k % pf.Nx) (k / pf.Nx)) ∧
        ((build pf).getD k 0).im ≤ 0) ∧
    (bandWidth pf.cap_ratio pf.Nx = max 1 (cppRound (pf.cap_ratio * (pf.Nx : ℝ))) ∧
     bandWidth pf.cap_ratio pf.Ny = max 1 (cppRound (pf.cap_ratio * (pf.Ny : ℝ))) ∧
     1 ≤ bandWidth pf.cap_ratio pf.Nx ∧ 1 ≤ bandWidth pf.cap_ratio pf.Ny) ∧
    (∀ i j : ℕ,
      bandWidth pf.cap_ratio pf.Nx ≤ (i : ℤ) →
      (i : ℤ) < (pf.Nx : ℤ) - bandWidth pf.cap_ratio pf.Nx →
      bandWidth pf.cap_ratio pf.Ny ≤ (j : ℤ) →
      (j : ℤ) < (pf.Ny : ℤ) - bandWidth pf.cap_ratio pf.Ny →
      capContrib pf.cap_strength (spongeS pf i j) = 0) ∧
    (∀ i j : ℕ, spongeS pf i j
        = max (axisProximity pf.Nx (bandWidth pf.cap_ratio pf.Nx) i)
              (axisProximity pf.Ny (bandWidth pf.cap_ratio pf.Ny) j)) ∧
    (∀ i i' j : ℕ, i ≤ i' → (i' : ℤ) < (pf.Nx : ℤ) - bandWidth pf.cap_ratio pf.Nx →
      (j : ℤ) ≤ (pf.Ny : ℤ) - 1 →
      |capContrib pf.cap_strength (spongeS pf i' j)|
        ≤ |capContrib pf.cap_strength (spongeS pf i j)|) ∧
    (∀ i i' j : ℕ, i' ≤ i → bandWidth pf.cap_ratio pf.Nx ≤ (i' : ℤ) →
      (i : ℤ) ≤ (pf.Nx : ℤ) - 1 → (j : ℤ) ≤ (pf.Ny : ℤ) - 1 →
      |capContrib pf.cap_strength (spongeS pf i' j)|
        ≤ |capContrib pf.cap_strength (spongeS pf i j)|) ∧
    (∀ i j j' : ℕ, j ≤ j' → (j' : ℤ) < (pf.Ny : ℤ) - bandWidth pf.cap_ratio pf.Ny →
      (i : ℤ) ≤ (pf.Nx : ℤ) - 1 →
      |capContrib pf.cap_strength (spongeS pf i j')|
        ≤ |capContrib pf.cap_strength (spongeS pf i j)|) ∧
    (∀ i j j' : ℕ, j' ≤ j → bandWidth pf.cap_ratio pf.Ny ≤ (j' : ℤ) →
      (j : ℤ) ≤ (pf.Ny : ℤ) - 1 → (i : ℤ) ≤ (pf.Nx : ℤ) - 1 →
      |capContrib pf.cap_strength (spongeS pf i j')|
        ≤ |capContrib pf.cap_strength (spongeS pf i j)|) := by
  refine ⟨?_, ⟨rfl, rfl, bandWidth_ge_one _ _, bandWidth_ge_one _ _⟩, ?_, fun i j => rfl,
    ?_, ?_, ?_, ?_⟩
  · intro k hk
    rw [build_getD pf k hk]
    exact ⟨rfl, capContrib_nonpos _ _ hstr⟩
  · intro i j h1 h2 h3 h4
    have hx := axisProximity_inner pf.Nx (bandWidth pf.cap_ratio pf.Nx) i h1 h2
    have hy := axisProximity_inner pf.Ny (bandWidth pf.cap_ratio pf.Ny) j h3 h4
    unfold spongeS
    rw [hx, hy, max_self]
    unfold capContrib
    norm_num
  · intro i i' j hle hi' hj
    have hwx := bandWidth_ge_one pf.cap_ratio pf.Nx
    have hx := axisProximity_mono_left pf.Nx (bandWidth pf.cap_ratio pf.Nx) i i' hwx hle hi'
    have hss : spongeS pf i' j ≤ spongeS pf i j := max_le_max hx (le_refl _)
    refine capMagMono _ _ _ hstr (spongeS_nonneg pf i' j) hss
      (spongeS_le_one pf i j (by omega) hj)
  · intro i i' j hle hi' hi hj
    have hwx := bandWidth_ge_one pf.cap_ratio pf.Nx
    have hx := axisProximity_mono_right pf.Nx (bandWidth pf.cap_ratio pf.Nx) i i' hwx hle hi'
    have hss : spongeS pf i' j ≤ spongeS pf i j := max_le_max hx (le_refl _)
    exact capMagMono _ _ _ hstr (spongeS_nonneg pf i' j) hss (spongeS_le_one pf i j hi hj)
  · intro i j j' hle hj' hi
    have hwy := bandWidth_ge_one pf.cap_ratio pf.Ny
    have hy := axisProximity_mono_left pf.Ny (bandWidth pf.cap_ratio pf.Ny) j j' hwy hle hj'
    have hss : spongeS pf i j' ≤ spongeS pf i j := max_le_max (le_refl _) hy
    refine capMagMono _ _ _ hstr (spongeS_nonneg pf i j') hss
      (spongeS_le_one pf i j hi (by omega))
  · intro i j j' hle hj' hj hi
    have hwy := bandWidth_ge_one pf.cap_ratio pf.Ny
    have hy := axisProximity_mono_right pf.Ny (bandWidth pf.cap_ratio pf.Ny) j j' hwy hle hj'
    have hss : spongeS pf i j' ≤ spongeS pf i j := max_le_max (le_refl _) hy
    exact capMagMono _ _ _ hstr (spongeS_nonneg pf i j') hss (spongeS_le_one pf i j hi hj)

/-- Witness for C8: the concrete 8×8 potential field with `cap_strength = 1`,
`cap_ratio = 1/10` (band width 1): the imaginary part at the corner cell is
nonpositive and the sponge vanishes at the interior cell (4, 4). -/
theorem claim_C8_witness :
    (0 : ℝ) ≤ simW.pfield.cap_strength ∧
    ((build simW.pfield).getD 0 0).im ≤ 0 ∧
    capContrib simW.pfield.cap_strength (spongeS simW.pfield 4 4) = 0 := by
  have h := claim_C8 simW.pfield (by norm_num [simW])
  have hband : bandWidth ((1 : ℝ) / 10) 8 = 1 := by
    have hcp : cppRound ((1 : ℝ) / 10 * (8 : ℕ)) = 1 := by
      unfold cppRound
      rw [if_neg (by push_cast; norm_num)]
      have h2 : ((1 : ℝ) / 10 * (8 : ℕ) + 1 / 2) = 13 / 10 := by push_cast; norm_num
      rw [h2]
      rw [Int.floor_eq_iff] <;> norm_num
    unfold bandWidth
    rw [hcp]
    exact max_self 1
  refine ⟨by norm_num [simW], (h.1 0 (by decide)).2, ?_⟩
  refine h.2.2.1 4 4 ?_ ?_ ?_ ?_
  · show bandWidth ((1 : ℝ) / 10) 8 ≤ ((4 : ℕ) : ℤ)
    rw [hband]
    norm_num
  · show ((4 : ℕ) : ℤ) < ((8 : ℕ) : ℤ) - bandWidth ((1 : ℝ) / 10) 8
    rw [hband]
    norm_num
  · show bandWidth ((1 : ℝ) / 10) 8 ≤ ((4 : ℕ) : ℤ)
    rw [hband]
    norm_num
  · show ((4 : ℕ) : ℤ) < ((8 : ℕ) : ℤ) - bandWidth ((1 : ℝ) / 10) 8
    rw [hband]
    norm_num
theorem pivot_zero (a b c d : ℕ → ℂ) : pivot a b c d 0 = b 0 := rfl

theorem fwdRhs_zero (a b c d : ℕ → ℂ) : fwdRhs a b c d 0 = d 0 := rfl

theorem pivot_succ (a b c d : ℕ → ℂ) (i : ℕ) :
    pivot a b c d (i + 1) = b (i + 1) - a (i + 1) / pivot a b c d i * c i := rfl

theorem fwdRhs_succ (a b c d : ℕ → ℂ) (i : ℕ) :
    fwdRhs a b c d (i + 1) = d (i + 1) - a (i + 1) / pivot a b c d i * fwdRhs a b c d i := rfl

theorem solve_last (a b c d : ℕ → ℂ) (n : ℕ) :
    solve_tridiagonal a b c d n (n - 1)
      = fwdRhs a b c d (n - 1) / pivot a b c d (n - 1) := by
  unfold solve_tridiagonal
  rw [Nat.sub_self]
  rfl

theorem solve_step (a b c d : ℕ → ℂ) (n i : ℕ) (hi : i + 1 < n) :
    solve_tridiagonal a b c d n i
      = (fwdRhs a b c d i - c i * solve_tridiagonal a b c d n (i + 1))
          / pivot a b c d i := by
  unfold solve_tridiagonal
  have h1 : n - 1 - i = (n - 2 - i) + 1 := by omega
  have h3 : n - 1 - (i + 1) = n - 2 - i := by omega
  rw [h1, h3]
  simp only [backAux]
  have h2 : n - 2 - (n - 2 - i) = i := by omega
  rw [h2]

theorem back_rel (a b c d : ℕ → ℂ) (n : ℕ)
    (hpiv : ∀ i, i < n → pivot a b c d i ≠ 0) :
    ∀ i, i < n →
      pivot a b c d i * solve_tridiagonal a b c d n i
          + (if i + 1 < n then c i * solve_tridiagonal a b c d n (i + 1) else 0)
        = fwdRhs a b c d i := by
  intro i hi
  by_cases h : i + 1 < n
  · rw [if_pos h, solve_step a b c d n i h,
      mul_div_cancel₀ _ (hpiv i hi)]
    ring
  · have h2 : i = n - 1 := by omega
    subst h2
    rw [if_neg h, solve_last a b c d n,
      mul_div_cancel₀ _ (hpiv (n - 1) hi)]
    ring

/-- C7: for `n >= 1`, when every pivot produced by the forward sweep is
nonzero, `solve_tridiagonal` returns the unique solution of the tridiagonal
system given by the original `a`, `b`, `c`, `d` (with `a 0` and `c (n-1)`
ignored and out-of-range neighbour terms dropped): re-multiplying the
original matrix by the output reproduces the original right-hand side, and
any vector satisfying those equations agrees with the output. -/
theorem claim_C7 (a b c d : ℕ → ℂ) (n : ℕ) (hn : 1 ≤ n)
    (hpiv : ∀ i, i < n → pivot a b c d i ≠ 0) :
    (∀ i, i < n →
      (if 0 < i then a i * solve_tridiagonal a b c d n (i - 1) else 0)
          + b i * solve_tridiagonal a b c d n i
          + (if i + 1 < n then c i * solve_tridiagonal a b c d n (i + 1) else 0) = d i) ∧
    (∀ y : ℕ → ℂ,
      (∀ i, i < n →
        (if 0 < i then a i * y (i - 1) else 0) + b i * y i
            + (if i + 1 < n then c i * y (i + 1) else 0) = d i) →
      ∀ i, i < n → y i = solve_tridiagonal a b c d n i) := by
  have hbr := back_rel a b c d n hpiv
  constructor
  · intro i hi
    match i with
    | 0 =>
      have h0 := hbr 0 hn
      rw [if_neg (lt_irrefl 0)]
      rw [pivot_zero, fwdRhs_zero] at h0
      linear_combination h0
    | m + 1 =>
      have hm : m < n := by omega
      have hbr1 := hbr m hm
      rw [if_pos (by omega : m + 1 < n)] at hbr1
      have hbr2 := hbr (m + 1) hi
      have hw : a (m + 1) / pivot a b c d m * pivot a b c d m = a (m + 1) :=
        div_mul_cancel₀ _ (hpiv m hm)
      have hb : b (m + 1) = pivot a b c d (m + 1) + a (m + 1) / pivot a b c d m * c m := by
        rw [pivot_succ]
        ring
      have hd : d (m + 1)
          = fwdRhs a b c d (m + 1) + a (m + 1) / pivot a b c d m * fwdRhs a b c d m := by
        rw [fwdRhs_succ]
        ring
      rw [if_pos (Nat.succ_pos m), Nat.add_sub_cancel, hb, hd]
      linear_combination hbr2 + a (m + 1) / pivot a b c d m * hbr1
        - solve_tridiagonal a b c d n m * hw
  · intro y hy
    have hEy : ∀ i, i < n →
        pivot a b c d i * y i + (if i + 1 < n then c i * y (i + 1) else 0)
          = fwdRhs a b c d i := by
      intro i
      induction i with
      | zero =>
        intro h0
        have hr := hy 0 h0
        rw [if_neg (lt_irrefl 0)] at hr
        rw [pivot_zero, fwdRhs_zero]
        linear_combination hr
      | succ m ih =>
        intro hi
        have hm : m < n := by omega
        have hIH := ih hm
        rw [if_pos (by omega : m + 1 < n)] at hIH
        have hr := hy (m + 1) hi
        rw [if_pos (Nat.succ_pos m), Nat.add_sub_cancel] at hr
        have hw : a (m + 1) / pivot a b c d m * pivot a b c d m = a (m + 1) :=
          div_mul_cancel₀ _ (hpiv m hm)
        have hb : b (m + 1) = pivot a b c d (m + 1) + a (m + 1) / pivot a b c d m * c m := by
          rw [pivot_succ]
          ring
        have hd : d (m + 1)
            = fwdRhs a b c d (m + 1) + a (m + 1) / pivot a b c d m * fwdRhs a b c d m := by
          rw [fwdRhs_succ]
          ring
        rw [hb, hd] at hr
        linear_combination hr - a (m + 1) / pivot a b c d m * hIH + y m * hw
    have hdown : ∀ k, k < n → y (n - 1 - k) = solve_tridiagonal a b c d n (n - 1 - k) := by
      intro k
      induction k with
      | zero =>
        intro h0
        have h1 : n - 1 - 0 = n - 1 := rfl
        have hlast : n - 1 < n := by omega
        have hEyl := hEy (n - 1) hlast
        have hbrl := hbr (n - 1) hlast
        rw [if_neg (by omega : ¬ n - 1 + 1 < n)] at hEyl hbrl
        rw [h1]
        apply mul_left_cancel₀ (hpiv (n - 1) hlast)
        rw [add_zero] at hEyl hbrl
        rw [hEyl, hbrl]
      | succ k ih =>
        intro hk
        have hkn : k < n := by omega
        have hIH := ih hkn
        have hidx : n - 1 - (k + 1) + 1 = n - 1 - k := by omega
        set i := n - 1 - (k + 1) with hidef
        have hin : i < n := by omega
        have hi1 : i + 1 < n := by omega
        have hEyi := hEy i hin
        have hbri := hbr i hin
        rw [if_pos hi1] at hEyi hbri
        apply mul_left_cancel₀ (hpiv i hin)
        have hyx : y (i + 1) = solve_tridiagonal a b c d n (i + 1) := by
          rw [hidx]
          exact hIH
        linear_combination hEyi - hbri - c i * hyx
    intro i hi
    have h1 : i = n - 1 - (n - 1 - i) := by omega
    have h2 : n - 1 - i < n := by omega
    rw [h1]
    exact hdown (n - 1 - i) h2

/-- Witness for C7: the concrete length-2 system has nonzero pivots (1 and 1),
so the solver output satisfies both rows and is unique. -/
theorem claim_C7_witness :
    (1 ≤ 2) ∧ (∀ i, i < 2 → pivot aT bT cT dT i ≠ 0) ∧
    ((∀ i, i < 2 →
      (if 0 < i then aT i * solve_tridiagonal aT bT cT dT 2 (i - 1) else 0)
          + bT i * solve_tridiagonal aT bT cT dT 2 i
          + (if i + 1 < 2 then cT i * solve_tridiagonal aT bT cT dT 2 (i + 1) else 0)
        = dT i) ∧
     (∀ y : ℕ → ℂ,
      (∀ i, i < 2 →
        (if 0 < i then aT i * y (i - 1) else 0) + bT i * y i
            + (if i + 1 < 2 then cT i * y (i + 1) else 0) = dT i) →
      ∀ i, i < 2 → y i = solve_tridiagonal aT bT cT dT 2 i)) := by
  have hpiv : ∀ i, i < 2 → pivot aT bT cT dT i ≠ 0 := by
    intro i hi
    interval_cases i
    · rw [pivot_zero]
      simp [bT]
    · rw [pivot_succ, pivot_zero]
      simp only [aT, bT, cT]
      norm_num
  exact ⟨by norm_num, hpiv, claim_C7 aT bT cT dT 2 (by norm_num) hpiv⟩

theorem refreshOp_Nx (t : SimState) : t.refreshOp.Nx = t.Nx := rfl

theorem refreshOp_Ny (t : SimState) : t.refreshOp.Ny = t.Ny := rfl

theorem refreshOp_Lx (t : SimState) : t.refreshOp.Lx = t.Lx := rfl

theorem refreshOp_Ly (t : SimState) : t.refreshOp.Ly = t.Ly := rfl

theorem refreshOp_dx (t : SimState) : t.refreshOp.dx = t.dx := rfl

theorem refreshOp_dy (t : SimState) : t.refreshOp.dy = t.dy := rfl

theorem refreshOp_psi (t : SimState) : t.refreshOp.psi = t.psi := rfl

theorem refreshOp_V (t : SimState) : t.refreshOp.V = t.V := rfl

theorem refreshOp_pfield (t : SimState) : t.refreshOp.pfield = t.pfield := rfl

theorem refreshOp_packets (t : SimState) : t.refreshOp.packets = t.packets := rfl

theorem refreshOp_stability (t : SimState) : t.refreshOp.stability = t.stability := rfl

theorem refreshOp_diag (t : SimState) : t.refreshOp.diagnostics
    = refresh_diagnostics_baseline t.pfield.cap_strength t.pfield.cap_ratio t.stability
        t.Nx t.Ny t.dx t.dy t.psi := rfl

theorem foldInject_fields (l : List Packet) (st : SimState) :
    (l.foldl (fun t p => t.injectGaussianOp p) st).Nx = st.Nx ∧
    (l.foldl (fun t p => t.injectGaussianOp p) st).Ny = st.Ny ∧
    (l.foldl (fun t p => t.injectGaussianOp p) st).Lx = st.Lx ∧
    (l.foldl (fun t p => t.injectGaussianOp p) st).Ly = st.Ly ∧
    (l.foldl (fun t p => t.injectGaussianOp p) st).dx = st.dx ∧
    (l.foldl (fun t p => t.injectGaussianOp p) st).dy = st.dy ∧
    (l.foldl (fun t p => t.injectGaussianOp p) st).pfield = st.pfield ∧
    (l.foldl (fun t p => t.injectGaussianOp p) st).stability = st.stability ∧
    (l.foldl (fun t p => t.injectGaussianOp p) st).packets = st.packets ∧
    (l.foldl (fun t p => t.injectGaussianOp p) st).V = st.V ∧
    (l.foldl (fun t p => t.injectGaussianOp p) st).psi
      = l.foldl (fun ps p => injectPsi st.Nx st.Lx st.Ly st.dx st.dy p ps) st.psi := by
  induction l generalizing st with
  | nil => exact ⟨rfl, rfl, rfl, rfl, rfl, rfl, rfl, rfl, rfl, rfl, rfl⟩
  | cons p l ih => exact ih (st.injectGaussianOp p)

/-- C10: `apply_eigenstate` with a field of the wrong length is a complete
no-op (the whole state, including `psi`, `packets`, `running` and the
diagnostics baseline, is returned unchanged); with a matching length it
replaces `psi`, clears the retained packets, clears the running flag and
refreshes the diagnostics baseline. -/
theorem claim_C10 (s : SimState) (es : EigenState) :
    (es.psi.length ≠ s.Nx * s.Ny → s.apply_eigenstate es = s) ∧
    (es.psi.length = s.Nx * s.Ny →
      (s.apply_eigenstate es).psi = es.psi ∧
      (s.apply_eigenstate es).packets = [] ∧
      (s.apply_eigenstate es).running = false ∧
      (s.apply_eigenstate es).diagnostics
        = refresh_diagnostics_baseline s.pfield.cap_strength s.pfield.cap_ratio
            s.stability s.Nx s.Ny s.dx s.dy es.psi ∧
      (s.apply_eigenstate es).Nx = s.Nx ∧
      (s.apply_eigenstate es).Ny = s.Ny ∧
      (s.apply_eigenstate es).dx = s.dx ∧
      (s.apply_eigenstate es).dy = s.dy ∧
      (s.apply_eigenstate es).V = s.V ∧
      (s.apply_eigenstate es).pfield = s.pfield) := by
  constructor
  · intro h
    unfold SimState.apply_eigenstate
    rw [if_pos h]
  · intro h
    unfold SimState.apply_eigenstate
    rw [if_neg (by simp [h])]
    exact ⟨rfl, rfl, rfl, rfl, rfl, rfl, rfl, rfl, rfl, rfl⟩

/-- Witness for C10: applying an empty eigenstate field to the 8×8 state is
a complete no-op. -/
theorem claim_C10_witness :
    ((⟨0, []⟩ : EigenState).psi.length ≠ simW.Nx * simW.Ny) ∧
    simW.apply_eigenstate ⟨0, []⟩ = simW :=
  ⟨by decide, (claim_C10 simW ⟨0, []⟩).1 (by decide)⟩

/-- C9: `resize(newNx, newNy)` clamps the dimensions to at least 8, restores
the square-cell geometry `dx = dy = 1 / min(Nx, Ny)` with `Lx = Nx*dx`,
`Ly = Ny*dy`, reallocates and re-synthesizes `psi` from the retained packet
list over a fresh zeroed field, rebuilds `V` from the carried-over
boxes/wells/CAP at the new geometry, and resets the diagnostics baseline;
and the square-cell invariant `dx = dy` is preserved by every other public
operation. -/
theorem claim_C9 :
    (∀ (s : SimState) (newNx newNy : ℤ) (s2 : SimState), s2 = s.resize newNx newNy →
      (s2.Nx : ℤ) = max 8 newNx ∧
      (s2.Ny : ℤ) = max 8 newNy ∧
      s2.dx = s2.dy ∧
      s2.dx = 1 / (min s2.Nx s2.Ny : ℝ) ∧
      s2.Lx = (s2.Nx : ℝ) * s2.dx ∧
      s2.Ly = (s2.Ny : ℝ) * s2.dy ∧
      s2.psi = s.packets.foldl
          (fun ps p => injectPsi s2.Nx s2.Lx s2.Ly s2.dx s2.dy p ps)
          (List.replicate (s2.Nx * s2.Ny) (cell0 ℝ)) ∧
      s2.packets = s.packets ∧
      s2.V = build s2.pfield ∧
      s2.pfield.Nx = s2.Nx ∧ s2.pfield.Ny = s2.Ny ∧
      s2.pfield.Lx = s2.Lx ∧ s2.pfield.Ly = s2.Ly ∧
      s2.pfield.boxes = s.pfield.boxes ∧ s2.pfield.wells = s.pfield.wells ∧
      s2.pfield.cap_strength = s.pfield.cap_strength ∧
      s2.pfield.cap_ratio = s.pfield.cap_ratio ∧
      s2.diagnostics = refresh_diagnostics_baseline s.pfield.cap_strength
          s.pfield.cap_ratio s.stability s2.Nx s2.Ny s2.dx s2.dy s2.psi) ∧
    (∀ (t : SimState) (p : Packet) (b : Box) (w : RadialWell) (es : EigenState)
        (solve : List (Cell ℝ) → List (Cell ℝ)), t.dx = t.dy →
      t.reset.dx = t.reset.dy ∧
      t.clearPsiOp.dx = t.clearPsiOp.dy ∧
      (t.injectGaussianOp p).dx = (t.injectGaussianOp p).dy ∧
      (t.addBoxOp b).dx = (t.addBoxOp b).dy ∧
      (t.addWellOp w).dx = (t.addWellOp w).dy ∧
      (t.apply_eigenstate es).dx = (t.apply_eigenstate es).dy ∧
      (t.stepWith solve).dx = (t.stepWith solve).dy ∧
      t.refreshOp.dx = t.refreshOp.dy) := by
  constructor
  · intro s newNx newNy s2 hs2
    subst hs2
    set Nx2 : ℕ := (max 8 newNx).toNat with hNx2
    set Ny2 : ℕ := (max 8 newNy).toNat with hNy2
    set cell : ℝ := 1 / ((max 8 (min Nx2 Ny2) : ℕ) : ℝ) with hcell
    set pf2 : PotentialField := { s.pfield with Nx := Nx2, Ny := Ny2, Lx := (Nx2 : ℝ) * cell, Ly := (Ny2 : ℝ) * cell } with hpf2
    set st0 : SimState := { s with Nx := Nx2, Ny := Ny2, Lx := (Nx2 : ℝ) * cell, Ly := (Ny2 : ℝ) * cell, dx := cell, dy := cell, psi := (List.replicate (Nx2 * Ny2) (cell0 ℝ)).map (fun _ => cell0 ℝ), pfield := pf2, V := build pf2 } with hst0
    have hresize : s.resize newNx newNy
        = (s.packets.foldl (fun t p => t.injectGaussianOp p) st0).refreshOp := rfl
    rw [hresize]
    have hNx : (s.packets.foldl (fun t p => t.injectGaussianOp p) st0).Nx = Nx2 :=
      (foldInject_fields s.packets st0).1
    have hNy : (s.packets.foldl (fun t p => t.injectGaussianOp p) st0).Ny = Ny2 :=
      (foldInject_fields s.packets st0).2.1
    have hLx : (s.packets.foldl (fun t p => t.injectGaussianOp p) st0).Lx
        = (Nx2 : ℝ) * cell := (foldInject_fields s.packets st0).2.2.1
    have hLy : (s.packets.foldl (fun t p => t.injectGaussianOp p) st0).Ly
        = (Ny2 : ℝ) * cell := (foldInject_fields s.packets st0).2.2.2.1
    have hdx : (s.packets.foldl (fun t p => t.injectGaussianOp p) st0).dx = cell :=
      (foldInject_fields s.packets st0).2.2.2.2.1
    have hdy : (s.packets.foldl (fun t p => t.injectGaussianOp p) st0).dy = cell :=
      (foldInject_fields s.packets st0).2.2.2.2.2.1
    have hpf : (s.packets.foldl (fun t p => t.injectGaussianOp p) st0).pfield = pf2 :=
      (foldInject_fields s.packets st0).2.2.2.2.2.2.1
    have hstab : (s.packets.foldl (fun t p => t.injectGaussianOp p) st0).stability
        = s.stability := (foldInject_fields s.packets st0).2.2.2.2.2.2.2.1
    have hpk : (s.packets.foldl (fun t p => t.injectGaussianOp p) st0).packets
        = s.packets := (foldInject_fields s.packets st0).2.2.2.2.2.2.2.2.1
    have hV : (s.packets.foldl (fun t p => t.injectGaussianOp p) st0).V = build pf2 :=
      (foldInject_fields s.packets st0).2.2.2.2.2.2.2.2.2.1
    have hpsi : (s.packets.foldl (fun t p => t.injectGaussianOp p) st0).psi
        = s.packets.foldl
            (fun ps p => injectPsi Nx2 ((Nx2 : ℝ) * cell) ((Ny2 : ℝ) * cell) cell cell p ps)
            st0.psi :=
      (foldInject_fields s.packets st0).2.2.2.2.2.2.2.2.2.2
    have hstart : st0.psi = List.replicate (Nx2 * Ny2) (cell0 ℝ) := by
      show (List.replicate (Nx2 * Ny2) (cell0 ℝ)).map (fun _ => cell0 ℝ) = _
      rw [List.map_replicate]
    have h8x : 8 ≤ Nx2 := by omega
    have h8y : 8 ≤ Ny2 := by omega
    refine ⟨?_, ?_, ?_, ?_, ?_, ?_, ?_, ?_, ?_, ?_, ?_, ?_, ?_, ?_, ?_, ?_, ?_, ?_⟩
    · rw [refreshOp_Nx, hNx, hNx2]
      exact Int.toNat_of_nonneg (le_trans (by norm_num) (le_max_left 8 newNx))
    · rw [refreshOp_Ny, hNy, hNy2]
      exact Int.toNat_of_nonneg (le_trans (by norm_num) (le_max_left 8 newNy))
    · rw [refreshOp_dx, refreshOp_dy, hdx, hdy]
    · rw [refreshOp_dx, hdx, refreshOp_Nx, hNx, refreshOp_Ny, hNy, hcell]
      rw [show max 8 (min Nx2 Ny2) = min Nx2 Ny2 from by omega, Nat.cast_min]
    · rw [refreshOp_Lx, hLx, refreshOp_Nx, hNx, refreshOp_dx, hdx]
    · rw [refreshOp_Ly, hLy, refreshOp_Ny, hNy, refreshOp_dy, hdy]
    · rw [refreshOp_psi, refreshOp_Nx, refreshOp_Ny, refreshOp_Lx, refreshOp_Ly,
        refreshOp_dx, refreshOp_dy, hpsi, hstart, hNx, hNy, hLx, hLy, hdx, hdy]
    · rw [refreshOp_packets, hpk]
    · rw [refreshOp_V, refreshOp_pfield, hV, hpf]
    · rw [refreshOp_pfield, refreshOp_Nx, hpf, hNx]
    · rw [refreshOp_pfield, refreshOp_Ny, hpf, hNy]
    · rw [refreshOp_pfield, refreshOp_Lx, hpf, hLx]
    · rw [refreshOp_pfield, refreshOp_Ly, hpf, hLy]
    · rw [refreshOp_pfield, hpf]
    · rw [refreshOp_pfield, hpf]
    · rw [refreshOp_pfield, hpf]
    · rw [refreshOp_pfield, hpf]
    · rw [refreshOp_diag, refreshOp_Nx, refreshOp_Ny, refreshOp_dx, refreshOp_dy,
        refreshOp_psi, hpf, hstab, hNx, hNy, hdx, hdy, hpsi]
  · intro t p b w es solve h
    have h1 : t.reset.dx = t.dx := (foldInject_fields t.packets _).2.2.2.2.1
    have h2 : t.reset.dy = t.dy := (foldInject_fields t.packets _).2.2.2.2.2.1
    refine ⟨by rw [h1, h2, h], h, h, h, h, ?_, ?_, h⟩
    · unfold SimState.apply_eigenstate
      split_ifs <;> exact h
    · simp only [SimState.stepWith]
      split_ifs <;> exact h

/-- Witness for C9: a concrete resize of the 8×8 state to (9, -3) — the
negative request is clamped to 8 — and the square-cell invariant on the
concrete state across a step. -/
theorem claim_C9_witness :
    (simW.resize 9 (-3) = simW.resize 9 (-3)) ∧
    ((simW.resize 9 (-3)).Nx : ℤ) = max 8 9 ∧
    ((simW.resize 9 (-3)).Ny : ℤ) = max 8 (-3) ∧
    (simW.resize 9 (-3)).dx = (simW.resize 9 (-3)).dy ∧
    simW.dx = simW.dy ∧
    (simW.stepWith id).dx = (simW.stepWith id).dy := by
  have h1 := claim_C9.1 simW 9 (-3) (simW.resize 9 (-3)) rfl
  have h2 := claim_C9.2 simW pktW boxW wellW ⟨0, []⟩ id rfl
  exact ⟨rfl, h1.1, h1.2.1, h1.2.2.1, rfl, h2.2.2.2.2.2.2.1⟩

end Schrodinger2D
